import Mathlib

/-!
Shallow embedding of the ridge-regression estimator from
`notebooks/ridge_regression.ipynb` (class `Ridge`), together with the
spec-side formulations it is checked against.

Numeric values are modelled over an arbitrary field `K` (instantiated at `ℚ`
for concrete evaluations and at `ℝ` for the order-theoretic properties);
numpy's exact-arithmetic idealization is used: `np.linalg.inv` succeeds
exactly on matrices of nonzero determinant and raises `LinAlgError`
(`NumericalSingularity`) otherwise, and `np.matmul` raises a shape error
(`ShapeMismatch`) when the inner dimensions disagree.
-/

open Matrix

set_option maxHeartbeats 1000000

/-- Errors a call to `Ridge.fit` can raise, following the spec's taxonomy.
`emptyInput` models the `ValueError` that `np.vstack` raises on an empty
list of arrays. -/
inductive FitError : Type
  | emptyInput
  | numericalSingularity
  | shapeMismatch
deriving DecidableEq, Repr

/-- Error raised by `predict` on an estimator that has not been fitted. -/
inductive PredictError : Type
  | unfittedModel
deriving DecidableEq, Repr

/-- The value a Python method call hands back to its caller: either `None`
(a method body with no `return` statement) or a coefficient matrix. -/
inductive PyRet (K : Type) : Type
  | none
  | vec (v : Matrix (Fin 3) (Fin 1) K)
deriving DecidableEq

/-- The `Ridge` estimator object: `__init__` stores the regularization
factor in `self._lambda`; a successful `fit` stores the coefficient matrix
in `self._coeff_hat` (absent before the first successful fit). -/
structure Ridge (K : Type) : Type where
  _lambda : K
  _coeff_hat : Option (Matrix (Fin 3) (Fin 1) K)
deriving DecidableEq

/-- `Ridge(lam)`: only `self._lambda` is assigned; `self._coeff_hat` does
not exist yet, modelled as `none`. -/
def Ridge.init {K : Type} (lam : K) : Ridge K :=
  { _lambda := lam, _coeff_hat := none }

/-- `Ridge._x_bar(x)`, i.e. `np.hstack(([1.0], x, np.square(x)))` for a
scalar `x`: the 3-element vector `[1, x, x*x]`. -/
def Ridge._x_bar {K : Type} [Field K] (x : K) : Fin 3 → K :=
  ![1, x, x * x]

/-- Determinant of a `3 × 3` matrix, written out (kernel-computable; proved
equal to `Matrix.det` below). -/
def det3 {K : Type} [Field K] (A : Matrix (Fin 3) (Fin 3) K) : K :=
  A 0 0 * A 1 1 * A 2 2 - A 0 0 * A 1 2 * A 2 1
    - A 0 1 * A 1 0 * A 2 2 + A 0 1 * A 1 2 * A 2 0
    + A 0 2 * A 1 0 * A 2 1 - A 0 2 * A 1 1 * A 2 0

/-- Adjugate of a `3 × 3` matrix, written out (kernel-computable; proved
equal to `Matrix.adjugate` below). -/
def adj3 {K : Type} [Field K] (A : Matrix (Fin 3) (Fin 3) K) :
    Matrix (Fin 3) (Fin 3) K :=
  !![A 1 1 * A 2 2 - A 1 2 * A 2 1,
    -(A 0 1 * A 2 2) + A 0 2 * A 2 1,
    A 0 1 * A 1 2 - A 0 2 * A 1 1;
    -(A 1 0 * A 2 2) + A 1 2 * A 2 0,
    A 0 0 * A 2 2 - A 0 2 * A 2 0,
    -(A 0 0 * A 1 2) + A 0 2 * A 1 0;
    A 1 0 * A 2 1 - A 1 1 * A 2 0,
    -(A 0 0 * A 2 1) + A 0 1 * A 2 0,
    A 0 0 * A 1 1 - A 0 1 * A 1 0]

/-- `np.linalg.inv` on a matrix of nonzero determinant: the inverse via the
adjugate formula (computable; callers guard the singular case). -/
def inv3 {K : Type} [Field K] (A : Matrix (Fin 3) (Fin 3) K) :
    Matrix (Fin 3) (Fin 3) K :=
  (det3 A)⁻¹ • adj3 A

theorem det3_eq {K : Type} [Field K] (A : Matrix (Fin 3) (Fin 3) K) :
    det3 A = A.det := by
  rw [Matrix.det_fin_three]; rfl

theorem adj3_eq {K : Type} [Field K] (A : Matrix (Fin 3) (Fin 3) K) :
    adj3 A = A.adjugate := by
  rw [Matrix.adjugate_fin_three]; rfl

/-- The explicit `3 × 3` inverse agrees with Mathlib's matrix inverse. -/
theorem inv3_eq {K : Type} [Field K] (A : Matrix (Fin 3) (Fin 3) K) :
    inv3 A = A⁻¹ := by
  rw [Matrix.inv_def, Ring.inverse_eq_inv, inv3, det3_eq, adj3_eq]

/-- `Ridge.fit(x_train, y_train)`, step by step as in the notebook:
`X = np.vstack([self._x_bar(x) for x in x_train])` (raises on an empty
list), `Y = np.vstack([y for y in y_train])` (an `len(y_train) × 1`
column; raises on an empty list), `XTX = X.T @ X + lam * np.identity(3)`,
then `self._coeff_hat = np.linalg.inv(XTX) @ X.T @ Y`. `np.linalg.inv`
raises `LinAlgError` on a singular `XTX`; the final `np.matmul` raises a
shape error when `len(y_train) ≠ len(x_train)`, in that evaluation order.
The method body has no `return`, so the call returns Python `None`. -/
def Ridge.fit {K : Type} [Field K] [DecidableEq K] (r : Ridge K)
    (x_train y_train : List K) : Except FitError (Ridge K × PyRet K) :=
  if x_train.length = 0 ∨ y_train.length = 0 then
    Except.error FitError.emptyInput
  else
    let X : Matrix (Fin x_train.length) (Fin 3) K :=
      Matrix.of fun i j => Ridge._x_bar (x_train.get i) j
    let XT := X.transpose
    let XTX := XT * X + r._lambda • (1 : Matrix (Fin 3) (Fin 3) K)
    if det3 XTX = 0 then
      Except.error FitError.numericalSingularity
    else if h : y_train.length = x_train.length then
      let Y : Matrix (Fin x_train.length) (Fin 1) K :=
        Matrix.of fun i _ => y_train.get (Fin.cast h.symm i)
      Except.ok ({ r with _coeff_hat := some (inv3 XTX * XT * Y) }, PyRet.none)
    else
      Except.error FitError.shapeMismatch

/-- The estimator state after a call to `fit`: the updated object on
success, the unchanged object when the call raises. -/
def Ridge.fitPost {K : Type} [Field K] [DecidableEq K] (r : Ridge K)
    (x_train y_train : List K) : Ridge K :=
  match r.fit x_train y_train with
  | Except.ok (r', _) => r'
  | Except.error _ => r

/-- Modelled from the spec: the `predict` operation is absent from the
source class (the notebook evaluates the polynomial inline from
`_coeff_hat`); per spec §4.1 it returns `θ̂ᵀ · expand(x)` and signals
`UnfittedModel` when no fit has stored a coefficient vector. -/
def Ridge.predict {K : Type} [Field K] (r : Ridge K) (x : K) :
    Except PredictError K :=
  match r._coeff_hat with
  | none => Except.error PredictError.unfittedModel
  | some c => Except.ok (∑ i, c i 0 * Ridge._x_bar x i)

/-- Spec-side design matrix: the `n × 3` matrix whose `i`-th row is the
expanded feature vector `[1, x i, (x i)^2]`, rows in input order. -/
def designM {K : Type} [Field K] {n : ℕ} (x : Fin n → K) :
    Matrix (Fin n) (Fin 3) K :=
  Matrix.of fun i j => ![1, x i, x i ^ 2] j

/-- Spec-side regularized Gram matrix `XᵀX + λI` with `I` the `3 × 3`
identity. -/
def regGram {K : Type} [Field K] {n : ℕ} (lam : K) (x : Fin n → K) :
    Matrix (Fin 3) (Fin 3) K :=
  (designM x)ᵀ * designM x + lam • 1

/-- Spec-side penalized objective
`J(θ) = Σᵢ (θᵀ x̄ᵢ − yᵢ)² + λ ‖θ‖²` over the training set. -/
def objJ {K : Type} [Field K] {n : ℕ} (lam : K) (x y : Fin n → K)
    (θ : Fin 3 → K) : K :=
  (∑ i, (θ ⬝ᵥ designM x i - y i) ^ 2) + lam * ∑ j, θ j ^ 2

/-- Euclidean norm of the coefficient vector stored by a `fit` call, `0`
when the call failed (used to state the shrinkage/vanishing properties). -/
noncomputable def coeffNorm (e : Except FitError (Ridge ℝ × PyRet ℝ)) : ℝ :=
  match e with
  | Except.ok (r', _) =>
      match r'._coeff_hat with
      | some c => Real.sqrt (∑ i, c i 0 ^ 2)
      | none => 0
  | Except.error _ => 0

/-- Discriminator for the Python return value of `fit`: `true` exactly when
the call returned a coefficient matrix (rather than `None` or an error). -/
def retIsVec {K : Type} (e : Except FitError (Ridge K × PyRet K)) : Bool :=
  match e with
  | Except.ok (_, PyRet.vec _) => true
  | _ => false

/-- The ridge solution vector `(XᵀX + λI)⁻¹ XᵀY` (via the computable
`inv3`). -/
def thetaVec {K : Type} [Field K] {n : ℕ} (lam : K) (x y : Fin n → K) :
    Fin 3 → K :=
  inv3 (regGram lam x) *ᵥ ((designM x)ᵀ *ᵥ y)

theorem x_bar_eq_expansion {K : Type} [Field K] (x : K) :
    Ridge._x_bar x = ![1, x, x ^ 2] := by
  funext j
  fin_cases j <;> simp [Ridge._x_bar, sq]

theorem stackX_eq_designM {K : Type} [Field K] (xs : List K) :
    (Matrix.of fun i j => Ridge._x_bar (xs.get i) j) = designM xs.get := by
  ext i j
  simp only [Matrix.of_apply]
  rw [x_bar_eq_expansion]
  rfl

/-- Characterization of a successful `fit` call: on nonempty input of
matching lengths with a nonsingular regularized Gram matrix, `fit`
returns the updated estimator (same `_lambda`, coefficient column stored)
paired with Python `None`. -/
theorem fit_ok_char {K : Type} [Field K] [DecidableEq K] (lam : K)
    (c₀ : Option (Matrix (Fin 3) (Fin 1) K)) (xs ys : List K)
    (hx : xs ≠ []) (hlen : ys.length = xs.length)
    (hdet : det3 (regGram lam xs.get) ≠ 0) :
    Ridge.fit ⟨lam, c₀⟩ xs ys =
      Except.ok
        (⟨lam, some (Matrix.col (Fin 1)
            (thetaVec lam xs.get fun j => ys.get (Fin.cast hlen.symm j)))⟩,
          PyRet.none) := by
  have hx0 : xs.length ≠ 0 := by simpa [List.length_eq_zero] using hx
  have hcond : ¬(xs.length = 0 ∨ ys.length = 0) := by
    push_neg
    exact ⟨hx0, by rw [hlen]; exact hx0⟩
  unfold Ridge.fit
  rw [if_neg hcond]
  simp only [stackX_eq_designM]
  rw [if_neg (by rw [show (designM xs.get)ᵀ * designM xs.get + lam • 1 = regGram lam xs.get from rfl]; exact hdet)]
  rw [dif_pos hlen]
  congr 1
  congr 1
  congr 1
  rw [show (Matrix.of fun i (_ : Fin 1) => ys.get (Fin.cast hlen.symm i)) =
        Matrix.col (Fin 1) (fun j => ys.get (Fin.cast hlen.symm j)) from rfl]
  rw [show (designM xs.get)ᵀ * designM xs.get + lam • 1 = regGram lam xs.get from rfl]
  rw [← Matrix.col_mulVec, ← Matrix.mulVec_mulVec]
  rfl

/-- A singular regularized Gram matrix makes `fit` fail with
`NumericalSingularity`, regardless of whether the target length matches. -/
theorem fit_singular_char {K : Type} [Field K] [DecidableEq K] (lam : K)
    (c₀ : Option (Matrix (Fin 3) (Fin 1) K)) (xs ys : List K)
    (hx : xs ≠ []) (hy : ys ≠ [])
    (hdet : det3 (regGram lam xs.get) = 0) :
    Ridge.fit ⟨lam, c₀⟩ xs ys = Except.error FitError.numericalSingularity := by
  have hcond : ¬(xs.length = 0 ∨ ys.length = 0) := by
    push_neg
    constructor <;> simpa [List.length_eq_zero]
  unfold Ridge.fit
  rw [if_neg hcond]
  simp only [stackX_eq_designM]
  rw [if_pos (by rw [show (designM xs.get)ᵀ * designM xs.get + lam • 1 = regGram lam xs.get from rfl]; exact hdet)]

/-- Mismatched input lengths with a nonsingular Gram matrix make `fit`
fail with the shape error raised by the final matrix product. -/
theorem fit_shape_char {K : Type} [Field K] [DecidableEq K] (lam : K)
    (c₀ : Option (Matrix (Fin 3) (Fin 1) K)) (xs ys : List K)
    (hx : xs ≠ []) (hy : ys ≠ []) (hlen : ys.length ≠ xs.length)
    (hdet : det3 (regGram lam xs.get) ≠ 0) :
    Ridge.fit ⟨lam, c₀⟩ xs ys = Except.error FitError.shapeMismatch := by
  have hcond : ¬(xs.length = 0 ∨ ys.length = 0) := by
    push_neg
    constructor <;> simpa [List.length_eq_zero]
  unfold Ridge.fit
  rw [if_neg hcond]
  simp only [stackX_eq_designM]
  rw [if_neg (by rw [show (designM xs.get)ᵀ * designM xs.get + lam • 1 = regGram lam xs.get from rfl]; exact hdet)]
  rw [dif_neg hlen]

/-- Transport `regGram` along the identification of a concrete list's `get`
function with an explicit `Fin n` vector (used to evaluate Gram
determinants at concrete inputs). -/
theorem regGram_list_eq {K : Type} [Field K] (lam : K) (xs : List K) {n : ℕ}
    (v : Fin n → K) (h : xs.length = n)
    (hv : ∀ i : Fin n, xs.get (Fin.cast h.symm i) = v i) :
    regGram lam xs.get = regGram lam v := by
  subst h
  have hg : xs.get = v := by
    funext i
    simpa using hv i
  rw [hg]

/-- Inversion on a successful `fit`: the stored `_lambda` is unchanged, a
coefficient matrix is stored, and the Python return value is `None`. -/
theorem fit_ok_inv {K : Type} [Field K] [DecidableEq K] {lam : K}
    {c₀ : Option (Matrix (Fin 3) (Fin 1) K)} {xs ys : List K}
    {r' : Ridge K} {ret : PyRet K}
    (h : Ridge.fit ⟨lam, c₀⟩ xs ys = Except.ok (r', ret)) :
    r'._lambda = lam ∧ (∃ c, r'._coeff_hat = some c) ∧ ret = PyRet.none := by
  unfold Ridge.fit at h
  split at h
  · exact absurd h (by simp)
  · simp only [] at h
    split at h
    · exact absurd h (by simp)
    · split at h
      · simp only [Except.ok.injEq, Prod.mk.injEq] at h
        obtain ⟨h1, h2⟩ := h
        refine ⟨by rw [← h1], ⟨_, by rw [← h1]⟩, h2.symm⟩
      · exact absurd h (by simp)

theorem det_gram_012_lam1 : det3 (regGram (1 : ℚ) ([0, 1, 2] : List ℚ).get) = 66 := by
  rw [regGram_list_eq 1 [0, 1, 2] (![0, 1, 2]) rfl (by intro i; fin_cases i <;> rfl)]
  norm_num +decide [det3, regGram, designM, Matrix.mul_apply, Matrix.transpose_apply,
    Fin.sum_univ_three, Matrix.smul_apply, Matrix.one_apply, smul_eq_mul]

theorem det_gram_0_lam1 : det3 (regGram (1 : ℚ) ([0] : List ℚ).get) = 2 := by
  rw [regGram_list_eq 1 [0] (![0]) rfl (by intro i; fin_cases i; rfl)]
  norm_num +decide [det3, regGram, designM, Matrix.mul_apply, Matrix.transpose_apply,
    Fin.sum_univ_one, Matrix.smul_apply, Matrix.one_apply, smul_eq_mul]

theorem det_gram_0_lam0 : det3 (regGram (0 : ℚ) ([0] : List ℚ).get) = 0 := by
  rw [regGram_list_eq 0 [0] (![0]) rfl (by intro i; fin_cases i; rfl)]
  norm_num +decide [det3, regGram, designM, Matrix.mul_apply, Matrix.transpose_apply,
    Fin.sum_univ_one, Matrix.smul_apply, Matrix.one_apply, smul_eq_mul]

/-- Claim C3: for every scalar `x`, the feature expansion is the 3-element
vector `[1, x, x²]`, intercept first, linear term second, quadratic term
last. -/
theorem expand_is_one_x_xsq {K : Type} [Field K] (x : K) :
    Ridge._x_bar x = ![1, x, x ^ 2] ∧
    Ridge._x_bar x 0 = 1 ∧ Ridge._x_bar x 1 = x ∧ Ridge._x_bar x 2 = x ^ 2 := by
  refine ⟨x_bar_eq_expansion x, ?_, ?_, ?_⟩ <;> simp [Ridge._x_bar, sq]

/-- Claim C5: whenever the regularized Gram matrix `XᵀX + λI` is singular
(and the inputs are nonempty, as the interface requires), `fit` fails with
`NumericalSingularity`, and the estimator state is left unchanged (no
fallback regularization is injected). -/
theorem fit_singular_raises {K : Type} [Field K] [DecidableEq K] (lam : K)
    (c₀ : Option (Matrix (Fin 3) (Fin 1) K)) (xs ys : List K)
    (hx : xs ≠ []) (hy : ys ≠ [])
    (hdet : (regGram lam xs.get).det = 0) :
    Ridge.fit ⟨lam, c₀⟩ xs ys = Except.error FitError.numericalSingularity ∧
    Ridge.fitPost ⟨lam, c₀⟩ xs ys = ⟨lam, c₀⟩ := by
  rw [← det3_eq] at hdet
  have herr := fit_singular_char lam c₀ xs ys hx hy hdet
  exact ⟨herr, by rw [Ridge.fitPost, herr]⟩

theorem fit_singular_raises_witness :
    ([0] : List ℚ) ≠ [] ∧ ([1] : List ℚ) ≠ [] ∧
    (regGram (0 : ℚ) ([0] : List ℚ).get).det = 0 ∧
    Ridge.fit (⟨0, none⟩ : Ridge ℚ) [0] [1] =
      Except.error FitError.numericalSingularity := by
  have hdet : (regGram (0 : ℚ) ([0] : List ℚ).get).det = 0 := by
    rw [← det3_eq]; exact det_gram_0_lam0
  exact ⟨by simp, by simp, hdet,
    (fit_singular_raises 0 none [0] [1] (by simp) (by simp) hdet).1⟩

/-- Claim C6: on an estimator on which no successful fit has occurred (in
particular a freshly constructed one, whose coefficient state is absent),
`predict` signals `UnfittedModel`. -/
theorem predict_before_fit_raises {K : Type} [Field K] :
    (∀ lam : K, (Ridge.init lam)._coeff_hat = none) ∧
    ∀ (r : Ridge K) (x : K), r._coeff_hat = none →
      Ridge.predict r x = Except.error PredictError.unfittedModel := by
  refine ⟨fun _ => rfl, fun r x h => ?_⟩
  rw [Ridge.predict, h]

theorem predict_before_fit_raises_witness :
    (Ridge.init (1 : ℚ))._coeff_hat = none ∧
    Ridge.predict (Ridge.init (1 : ℚ)) 2 =
      Except.error PredictError.unfittedModel :=
  ⟨rfl, (predict_before_fit_raises.2 (Ridge.init 1) 2 rfl)⟩

/-- Claim C9: `fit` never reads and never changes `_lambda` or any other
state besides `_coeff_hat`: its outcome is independent of the previously
stored coefficient (overwrite, not merge), and on success the returned
estimator keeps the construction-time `_lambda` and holds a freshly stored
coefficient matrix. -/
theorem fit_frame_only_coeff {K : Type} [Field K] [DecidableEq K] (lam : K)
    (c₀ : Option (Matrix (Fin 3) (Fin 1) K)) (xs ys : List K) :
    Ridge.fit ⟨lam, c₀⟩ xs ys = Ridge.fit ⟨lam, none⟩ xs ys ∧
    (Ridge.fitPost ⟨lam, c₀⟩ xs ys)._lambda = lam ∧
    ∀ (r' : Ridge K) (ret : PyRet K),
      Ridge.fit ⟨lam, c₀⟩ xs ys = Except.ok (r', ret) →
        r'._lambda = lam ∧ ∃ c, r'._coeff_hat = some c := by
  refine ⟨rfl, ?_, fun r' ret h => ⟨(fit_ok_inv h).1, (fit_ok_inv h).2.1⟩⟩
  rw [Ridge.fitPost]
  rcases heq : Ridge.fit ⟨lam, c₀⟩ xs ys with e | p
  · rfl
  · obtain ⟨r', ret⟩ := p
    exact (fit_ok_inv heq).1

theorem fit_frame_only_coeff_witness :
    ∃ (r' : Ridge ℚ) (ret : PyRet ℚ),
      Ridge.fit (⟨1, some 0⟩ : Ridge ℚ) [0] [2] = Except.ok (r', ret) ∧
      r'._lambda = 1 ∧ (∃ c, r'._coeff_hat = some c) ∧
      Ridge.fit (⟨1, some 0⟩ : Ridge ℚ) [0] [2] =
        Ridge.fit (⟨1, none⟩ : Ridge ℚ) [0] [2] := by
  have hdet : det3 (regGram (1 : ℚ) ([0] : List ℚ).get) ≠ 0 := by
    rw [det_gram_0_lam1]; norm_num
  have hok := fit_ok_char (1 : ℚ) (some 0) [0] [2] (by simp) rfl hdet
  have hframe := fit_frame_only_coeff (1 : ℚ) (some 0) [0] [2]
  exact ⟨_, _, hok, (hframe.2.2 _ _ hok).1, (hframe.2.2 _ _ hok).2, hframe.1⟩

/-- Claim C4 counterexample: on a well-formed input that fits successfully,
the value `fit` hands back to its caller is Python `None`, not the
coefficient vector (`retIsVec` is `false` on the call's result). -/
theorem fit_returns_none_counterexample :
    retIsVec (Ridge.fit (Ridge.init (1 : ℚ)) [0] [2]) = false := by
  have hdet : det3 (regGram (1 : ℚ) ([0] : List ℚ).get) ≠ 0 := by
    rw [det_gram_0_lam1]; norm_num
  rw [show Ridge.init (1 : ℚ) = ⟨1, none⟩ from rfl,
    fit_ok_char (1 : ℚ) none [0] [2] (by simp) rfl hdet]
  rfl

/-- Claim C4 amended: a successful `fit` stores the fitted `3 × 1`
coefficient matrix retrievably in the estimator's `_coeff_hat`, but its
Python return value is `None` (there is no `return` statement). -/
theorem fit_stores_coeff_returns_none {K : Type} [Field K] [DecidableEq K]
    (lam : K) (c₀ : Option (Matrix (Fin 3) (Fin 1) K)) (xs ys : List K)
    (hx : xs ≠ []) (hlen : ys.length = xs.length)
    (hdet : (regGram lam xs.get).det ≠ 0) :
    ∃ C : Matrix (Fin 3) (Fin 1) K,
      Ridge.fit ⟨lam, c₀⟩ xs ys = Except.ok (⟨lam, some C⟩, PyRet.none) := by
  rw [← det3_eq] at hdet
  exact ⟨_, fit_ok_char lam c₀ xs ys hx hlen hdet⟩

theorem fit_stores_coeff_returns_none_witness :
    ([0] : List ℚ) ≠ [] ∧ ([2] : List ℚ).length = ([0] : List ℚ).length ∧
    (regGram (1 : ℚ) ([0] : List ℚ).get).det ≠ 0 ∧
    ∃ C : Matrix (Fin 3) (Fin 1) ℚ,
      Ridge.fit (⟨1, none⟩ : Ridge ℚ) [0] [2] =
        Except.ok (⟨1, some C⟩, PyRet.none) := by
  have hdet : (regGram (1 : ℚ) ([0] : List ℚ).get).det ≠ 0 := by
    rw [← det3_eq, det_gram_0_lam1]; norm_num
  exact ⟨by simp, rfl, hdet,
    fit_stores_coeff_returns_none 1 none [0] [2] (by simp) rfl hdet⟩

/-- Claim C7 counterexample: an input with mismatched lengths whose
regularized Gram matrix is singular is rejected with
`NumericalSingularity`, not `ShapeMismatch` — the Gram matrix is built and
inverted before the length mismatch is ever noticed. -/
theorem fit_shape_mismatch_counterexample :
    Ridge.fit (Ridge.init (0 : ℚ)) [0] [1, 2] =
      Except.error FitError.numericalSingularity ∧
    FitError.numericalSingularity ≠ FitError.shapeMismatch := by
  constructor
  · rw [show Ridge.init (0 : ℚ) = ⟨0, none⟩ from rfl]
    exact fit_singular_char 0 none [0] [1, 2] (by simp) (by simp)
      det_gram_0_lam0
  · decide

/-- Claim C7 amended: mismatched input lengths make `fit` fail with
`ShapeMismatch` and leave the estimator state unchanged, but the check
does not happen before computation begins: the error is raised by the
final matrix product, so it surfaces only when the (already computed)
regularized Gram matrix was invertible. -/
theorem fit_shape_mismatch_after_gram {K : Type} [Field K] [DecidableEq K]
    (lam : K) (c₀ : Option (Matrix (Fin 3) (Fin 1) K)) (xs ys : List K)
    (hx : xs ≠ []) (hy : ys ≠ []) (hlen : ys.length ≠ xs.length)
    (hdet : (regGram lam xs.get).det ≠ 0) :
    Ridge.fit ⟨lam, c₀⟩ xs ys = Except.error FitError.shapeMismatch ∧
    Ridge.fitPost ⟨lam, c₀⟩ xs ys = ⟨lam, c₀⟩ := by
  rw [← det3_eq] at hdet
  have herr := fit_shape_char lam c₀ xs ys hx hy hlen hdet
  exact ⟨herr, by rw [Ridge.fitPost, herr]⟩

theorem fit_shape_mismatch_after_gram_witness :
    ([1, 2] : List ℚ).length ≠ ([0] : List ℚ).length ∧
    (regGram (1 : ℚ) ([0] : List ℚ).get).det ≠ 0 ∧
    Ridge.fit (⟨1, none⟩ : Ridge ℚ) [0] [1, 2] =
      Except.error FitError.shapeMismatch := by
  have hdet : (regGram (1 : ℚ) ([0] : List ℚ).get).det ≠ 0 := by
    rw [← det3_eq, det_gram_0_lam1]; norm_num
  exact ⟨by simp, hdet,
    (fit_shape_mismatch_after_gram 1 none [0] [1, 2] (by simp) (by simp)
      (by simp) hdet).1⟩

/-- Claim C1: on `n ≥ 1` training pairs whose regularized Gram matrix
`XᵀX + λI` is invertible, `fit` stores exactly the coefficient vector
`θ̂ = (XᵀX + λI)⁻¹ XᵀY`, with `X` the `n × 3` design matrix of expanded
rows `[1, x, x²]` stacked in input order, `Y` the targets in the same
order, and `I` the `3 × 3` identity. -/
theorem fit_computes_normal_equations {K : Type} [Field K] [DecidableEq K]
    (lam : K) (c₀ : Option (Matrix (Fin 3) (Fin 1) K)) (xs ys : List K)
    (hx : xs ≠ []) (hlen : ys.length = xs.length)
    (hdet : (regGram lam xs.get).det ≠ 0) :
    ∃ C : Matrix (Fin 3) (Fin 1) K,
      Ridge.fit ⟨lam, c₀⟩ xs ys = Except.ok (⟨lam, some C⟩, PyRet.none) ∧
      ∀ i : Fin 3, C i 0 =
        ((regGram lam xs.get)⁻¹ *ᵥ
          ((designM xs.get)ᵀ *ᵥ fun j => ys.get (Fin.cast hlen.symm j))) i := by
  have hdet3 : det3 (regGram lam xs.get) ≠ 0 := by rw [det3_eq]; exact hdet
  refine ⟨_, fit_ok_char lam c₀ xs ys hx hlen hdet3, fun i => ?_⟩
  rw [Matrix.col_apply, thetaVec, inv3_eq]

theorem fit_computes_normal_equations_witness :
    ([0, 1, 2] : List ℚ) ≠ [] ∧
    ([1, 2, 5] : List ℚ).length = ([0, 1, 2] : List ℚ).length ∧
    (regGram (1 : ℚ) ([0, 1, 2] : List ℚ).get).det ≠ 0 ∧
    ∃ C : Matrix (Fin 3) (Fin 1) ℚ,
      Ridge.fit (⟨1, none⟩ : Ridge ℚ) [0, 1, 2] [1, 2, 5] =
        Except.ok (⟨1, some C⟩, PyRet.none) ∧
      ∀ i : Fin 3, C i 0 =
        ((regGram (1 : ℚ) ([0, 1, 2] : List ℚ).get)⁻¹ *ᵥ
          ((designM ([0, 1, 2] : List ℚ).get)ᵀ *ᵥ
            fun j => ([1, 2, 5] : List ℚ).get (Fin.cast rfl j))) i := by
  have hdet : (regGram (1 : ℚ) ([0, 1, 2] : List ℚ).get).det ≠ 0 := by
    rw [← det3_eq, det_gram_012_lam1]; norm_num
  exact ⟨by simp, rfl, hdet,
    fit_computes_normal_equations 1 none [0, 1, 2] [1, 2, 5] (by simp) rfl hdet⟩

/-- Claim C10: because the targets are stacked as an `n × 1` column before
the solve, the stored coefficient is the `3 × 1` column matrix of the
solution vector (not a flat length-3 vector), and indexing it at a
position `i` yields the 1-element row `fun _ => θ̂ i` rather than a
scalar. -/
theorem fit_coeff_is_column_matrix {K : Type} [Field K] [DecidableEq K]
    (lam : K) (c₀ : Option (Matrix (Fin 3) (Fin 1) K)) (xs ys : List K)
    (hx : xs ≠ []) (hlen : ys.length = xs.length)
    (hdet : (regGram lam xs.get).det ≠ 0) :
    ∃ C : Matrix (Fin 3) (Fin 1) K,
      Ridge.fit ⟨lam, c₀⟩ xs ys = Except.ok (⟨lam, some C⟩, PyRet.none) ∧
      C = Matrix.col (Fin 1)
        (thetaVec lam xs.get fun j => ys.get (Fin.cast hlen.symm j)) ∧
      ∀ i : Fin 3, C i =
        fun _ : Fin 1 =>
          thetaVec lam xs.get (fun j => ys.get (Fin.cast hlen.symm j)) i := by
  have hdet3 : det3 (regGram lam xs.get) ≠ 0 := by rw [det3_eq]; exact hdet
  exact ⟨_, fit_ok_char lam c₀ xs ys hx hlen hdet3, rfl, fun i => rfl⟩

theorem fit_coeff_is_column_matrix_witness :
    ([0, 1, 2] : List ℚ) ≠ [] ∧
    ([1, 0, 1] : List ℚ).length = ([0, 1, 2] : List ℚ).length ∧
    (regGram (1 : ℚ) ([0, 1, 2] : List ℚ).get).det ≠ 0 ∧
    ∃ C : Matrix (Fin 3) (Fin 1) ℚ,
      Ridge.fit (⟨1, none⟩ : Ridge ℚ) [0, 1, 2] [1, 0, 1] =
        Except.ok (⟨1, some C⟩, PyRet.none) ∧
      C = Matrix.col (Fin 1)
        (thetaVec (1 : ℚ) ([0, 1, 2] : List ℚ).get
          fun j => ([1, 0, 1] : List ℚ).get (Fin.cast rfl j)) := by
  have hdet : (regGram (1 : ℚ) ([0, 1, 2] : List ℚ).get).det ≠ 0 := by
    rw [← det3_eq, det_gram_012_lam1]; norm_num
  obtain ⟨C, h1, h2, h3⟩ :=
    fit_coeff_is_column_matrix 1 none [0, 1, 2] [1, 0, 1] (by simp) rfl hdet
  exact ⟨by simp, rfl, hdet, C, h1, h2⟩

theorem dp_self_nonneg {n : ℕ} (v : Fin n → ℝ) : 0 ≤ v ⬝ᵥ v :=
  Finset.sum_nonneg fun i _ => mul_self_nonneg (v i)

theorem dp_self_eq_sum_sq {n : ℕ} (v : Fin n → ℝ) : v ⬝ᵥ v = ∑ i, v i ^ 2 := by
  simp [Matrix.dotProduct, sq]

/-- The quadratic form of the regularized Gram matrix splits as
`‖Xv‖² + λ‖v‖²`. -/
theorem quad_split {n : ℕ} (lam : ℝ) (x : Fin n → ℝ) (v : Fin 3 → ℝ) :
    v ⬝ᵥ (regGram lam x *ᵥ v) =
      (designM x *ᵥ v) ⬝ᵥ (designM x *ᵥ v) + lam * (v ⬝ᵥ v) := by
  rw [regGram, Matrix.add_mulVec, Matrix.dotProduct_add, Matrix.smul_mulVec_assoc,
    Matrix.one_mulVec, Matrix.dotProduct_smul, smul_eq_mul]
  congr 1
  rw [← Matrix.mulVec_mulVec, Matrix.dotProduct_mulVec, Matrix.vecMul_transpose]

theorem regGram_transpose {n : ℕ} (lam : ℝ) (x : Fin n → ℝ) :
    (regGram lam x)ᵀ = regGram lam x := by
  rw [regGram, Matrix.transpose_add, Matrix.transpose_mul, Matrix.transpose_transpose,
    Matrix.transpose_smul, Matrix.transpose_one]

theorem dp_mulVec_symm {lam : ℝ} {n : ℕ} {x : Fin n → ℝ} (u v : Fin 3 → ℝ) :
    u ⬝ᵥ (regGram lam x *ᵥ v) = v ⬝ᵥ (regGram lam x *ᵥ u) := by
  rw [Matrix.dotProduct_mulVec]
  rw [show u ᵥ* regGram lam x = regGram lam x *ᵥ u from by
    rw [← regGram_transpose lam x, Matrix.vecMul_transpose, regGram_transpose]]
  exact Matrix.dotProduct_comm _ v

theorem quad_nonneg {n : ℕ} {lam : ℝ} (x : Fin n → ℝ) (hlam : 0 ≤ lam)
    (v : Fin 3 → ℝ) : 0 ≤ v ⬝ᵥ (regGram lam x *ᵥ v) := by
  rw [quad_split]
  have h1 := dp_self_nonneg (designM x *ᵥ v)
  have h2 := dp_self_nonneg v
  nlinarith

/-- The penalized objective is the quadratic
`θᵀAθ − 2 θᵀ(XᵀY) + YᵀY` in `θ`, with `A` the regularized Gram matrix. -/
theorem objJ_eq_quad {n : ℕ} (lam : ℝ) (x y : Fin n → ℝ) (θ : Fin 3 → ℝ) :
    objJ lam x y θ =
      θ ⬝ᵥ (regGram lam x *ᵥ θ) - 2 * (θ ⬝ᵥ ((designM x)ᵀ *ᵥ y)) + y ⬝ᵥ y := by
  have h1 : objJ lam x y θ =
      (designM x *ᵥ θ - y) ⬝ᵥ (designM x *ᵥ θ - y) + lam * (θ ⬝ᵥ θ) := by
    rw [objJ, dp_self_eq_sum_sq (designM x *ᵥ θ - y), dp_self_eq_sum_sq θ]
    congr 1
    apply Finset.sum_congr rfl
    intro i _
    congr 1
    rw [Pi.sub_apply]
    congr 1
    exact Matrix.dotProduct_comm θ (designM x i)
  have hXy : (designM x *ᵥ θ) ⬝ᵥ y = θ ⬝ᵥ ((designM x)ᵀ *ᵥ y) := by
    rw [Matrix.dotProduct_mulVec θ ((designM x)ᵀ) y, Matrix.vecMul_transpose]
  have hyX : y ⬝ᵥ (designM x *ᵥ θ) = θ ⬝ᵥ ((designM x)ᵀ *ᵥ y) := by
    rw [Matrix.dotProduct_comm, hXy]
  have hXX : (designM x *ᵥ θ) ⬝ᵥ (designM x *ᵥ θ) + lam * (θ ⬝ᵥ θ) =
      θ ⬝ᵥ (regGram lam x *ᵥ θ) := (quad_split lam x θ).symm
  rw [h1, Matrix.dotProduct_sub, Matrix.sub_dotProduct, Matrix.sub_dotProduct,
    hXy, hyX]
  nlinarith [hXX]

/-- Completing the square around any solution `θh` of the normal
equations: `J(θ) = J(θh) + (θ − θh)ᵀ A (θ − θh)`. -/
theorem objJ_sub_identity {n : ℕ} (lam : ℝ) (x y : Fin n → ℝ)
    (θh θ : Fin 3 → ℝ)
    (hsol : regGram lam x *ᵥ θh = (designM x)ᵀ *ᵥ y) :
    objJ lam x y θ =
      objJ lam x y θh + (θ - θh) ⬝ᵥ (regGram lam x *ᵥ (θ - θh)) := by
  have hsym := @dp_mulVec_symm lam n x θh θ
  rw [objJ_eq_quad, objJ_eq_quad, Matrix.mulVec_sub, Matrix.dotProduct_sub,
    Matrix.sub_dotProduct, Matrix.sub_dotProduct, hsym, hsol]
  ring

/-- A vector with vanishing regularized quadratic form is zero (when
`λ ≥ 0` and the regularized Gram matrix is invertible). -/
theorem quad_eq_zero_vec_eq_zero {n : ℕ} {lam : ℝ} {x : Fin n → ℝ}
    (hlam : 0 ≤ lam) (hdet : (regGram lam x).det ≠ 0) {v : Fin 3 → ℝ}
    (h0 : v ⬝ᵥ (regGram lam x *ᵥ v) = 0) : v = 0 := by
  rw [quad_split] at h0
  have hnn1 := dp_self_nonneg (designM x *ᵥ v)
  have hnn2 := dp_self_nonneg v
  have hnn3 : 0 ≤ lam * (v ⬝ᵥ v) := mul_nonneg hlam hnn2
  have h1 : (designM x *ᵥ v) ⬝ᵥ (designM x *ᵥ v) = 0 := by linarith
  have h2 : lam * (v ⬝ᵥ v) = 0 := by linarith
  have hXv : designM x *ᵥ v = 0 := Matrix.dotProduct_self_eq_zero.mp h1
  rcases eq_or_lt_of_le hlam with hlam0 | hlampos
  · have hAv : regGram lam x *ᵥ v = 0 := by
      rw [regGram, Matrix.add_mulVec, ← Matrix.mulVec_mulVec, hXv,
        Matrix.mulVec_zero, Matrix.smul_mulVec_assoc, Matrix.one_mulVec,
        ← hlam0, zero_smul, add_zero]
    by_contra hne
    exact hdet (Matrix.exists_mulVec_eq_zero_iff.mp ⟨v, hne, hAv⟩)
  · exact Matrix.dotProduct_self_eq_zero.mp
      ((mul_eq_zero.mp h2).resolve_left (ne_of_gt hlampos))

/-- `thetaVec` solves the normal equations when the regularized Gram
matrix is invertible. -/
theorem thetaVec_solves {K : Type} [Field K] {n : ℕ} (lam : K)
    (x y : Fin n → K) (hdet : (regGram lam x).det ≠ 0) :
    regGram lam x *ᵥ thetaVec lam x y = (designM x)ᵀ *ᵥ y := by
  rw [thetaVec, inv3_eq, Matrix.mulVec_mulVec,
    Matrix.mul_nonsing_inv _ (isUnit_iff_ne_zero.mpr hdet), Matrix.one_mulVec]

theorem objJ_min {n : ℕ} {lam : ℝ} {x y : Fin n → ℝ} (hlam : 0 ≤ lam)
    {θh : Fin 3 → ℝ} (hsol : regGram lam x *ᵥ θh = (designM x)ᵀ *ᵥ y)
    (θ : Fin 3 → ℝ) : objJ lam x y θh ≤ objJ lam x y θ := by
  rw [objJ_sub_identity lam x y θh θ hsol]
  have h := quad_nonneg x hlam (θ - θh)
  linarith

/-- Claim C2: whenever `XᵀX + λI` is invertible (with `λ ≥ 0` as the data
model requires), the coefficient vector stored by `fit` is the unique
global minimizer of `J(θ) = Σᵢ(θᵀx̄ᵢ − yᵢ)² + λ‖θ‖²` over all of `ℝ³`. -/
theorem fit_minimizes_objective (lam : ℝ)
    (c₀ : Option (Matrix (Fin 3) (Fin 1) ℝ)) (xs ys : List ℝ)
    (hlam : 0 ≤ lam) (hx : xs ≠ []) (hlen : ys.length = xs.length)
    (hdet : (regGram lam xs.get).det ≠ 0) :
    ∃ C : Matrix (Fin 3) (Fin 1) ℝ,
      Ridge.fit ⟨lam, c₀⟩ xs ys = Except.ok (⟨lam, some C⟩, PyRet.none) ∧
      (∀ θ : Fin 3 → ℝ,
        objJ lam xs.get (fun j => ys.get (Fin.cast hlen.symm j))
            (fun i => C i 0) ≤
          objJ lam xs.get (fun j => ys.get (Fin.cast hlen.symm j)) θ) ∧
      ∀ θ : Fin 3 → ℝ,
        objJ lam xs.get (fun j => ys.get (Fin.cast hlen.symm j)) θ =
            objJ lam xs.get (fun j => ys.get (Fin.cast hlen.symm j))
              (fun i => C i 0) →
          θ = fun i => C i 0 := by
  have hdet3 : det3 (regGram lam xs.get) ≠ 0 := by rw [det3_eq]; exact hdet
  have hsol := thetaVec_solves lam xs.get
    (fun j => ys.get (Fin.cast hlen.symm j)) hdet
  refine ⟨_, fit_ok_char lam c₀ xs ys hx hlen hdet3, fun θ => ?_, fun θ hθ => ?_⟩
  · exact objJ_min hlam hsol θ
  · simp only [Matrix.col_apply] at hθ ⊢
    have hq : (θ - thetaVec lam xs.get fun j => ys.get (Fin.cast hlen.symm j)) ⬝ᵥ
        (regGram lam xs.get *ᵥ
          (θ - thetaVec lam xs.get fun j => ys.get (Fin.cast hlen.symm j))) = 0 := by
      have hid := objJ_sub_identity lam xs.get
        (fun j => ys.get (Fin.cast hlen.symm j))
        (thetaVec lam xs.get fun j => ys.get (Fin.cast hlen.symm j)) θ hsol
      rw [hθ] at hid
      linarith
    exact sub_eq_zero.mp (quad_eq_zero_vec_eq_zero hlam hdet hq)

theorem det_gram_012_lam1_real :
    det3 (regGram (1 : ℝ) ([0, 1, 2] : List ℝ).get) = 66 := by
  rw [regGram_list_eq 1 [0, 1, 2] (![0, 1, 2]) rfl (by intro i; fin_cases i <;> rfl)]
  norm_num +decide [det3, regGram, designM, Matrix.mul_apply, Matrix.transpose_apply,
    Fin.sum_univ_three, Matrix.smul_apply, Matrix.one_apply, smul_eq_mul]

theorem fit_minimizes_objective_witness :
    (0 : ℝ) ≤ 1 ∧ ([0, 1, 2] : List ℝ) ≠ [] ∧
    ([1, 2, 5] : List ℝ).length = ([0, 1, 2] : List ℝ).length ∧
    (regGram (1 : ℝ) ([0, 1, 2] : List ℝ).get).det ≠ 0 ∧
    ∃ C : Matrix (Fin 3) (Fin 1) ℝ,
      Ridge.fit (⟨1, none⟩ : Ridge ℝ) [0, 1, 2] [1, 2, 5] =
        Except.ok (⟨1, some C⟩, PyRet.none) ∧
      ∀ θ : Fin 3 → ℝ,
        objJ (1 : ℝ) ([0, 1, 2] : List ℝ).get
            (fun j => ([1, 2, 5] : List ℝ).get (Fin.cast rfl j))
            (fun i => C i 0) ≤
          objJ (1 : ℝ) ([0, 1, 2] : List ℝ).get
            (fun j => ([1, 2, 5] : List ℝ).get (Fin.cast rfl j)) θ := by
  have hdet : (regGram (1 : ℝ) ([0, 1, 2] : List ℝ).get).det ≠ 0 := by
    rw [← det3_eq, det_gram_012_lam1_real]; norm_num
  obtain ⟨C, h1, h2, h3⟩ :=
    fit_minimizes_objective 1 none [0, 1, 2] [1, 2, 5] (by norm_num) (by simp)
      rfl hdet
  exact ⟨by norm_num, by simp, rfl, hdet, C, h1, h2⟩

theorem coeffNorm_nonneg (e : Except FitError (Ridge ℝ × PyRet ℝ)) :
    0 ≤ coeffNorm e := by
  rcases e with e | ⟨r', ret⟩
  · simp [coeffNorm]
  · rcases hc : r'._coeff_hat with _ | c <;> simp [coeffNorm, hc]

theorem coeffNorm_fit (lam : ℝ) (c₀ : Option (Matrix (Fin 3) (Fin 1) ℝ))
    (xs ys : List ℝ) (hx : xs ≠ []) (hlen : ys.length = xs.length)
    (hdet : (regGram lam xs.get).det ≠ 0) :
    coeffNorm (Ridge.fit ⟨lam, c₀⟩ xs ys) =
      Real.sqrt ((thetaVec lam xs.get fun j => ys.get (Fin.cast hlen.symm j)) ⬝ᵥ
        (thetaVec lam xs.get fun j => ys.get (Fin.cast hlen.symm j))) := by
  have hdet3 : det3 (regGram lam xs.get) ≠ 0 := by rw [det3_eq]; exact hdet
  rw [fit_ok_char lam c₀ xs ys hx hlen hdet3]
  simp [coeffNorm, Matrix.col_apply, dp_self_eq_sum_sq]

/-- For `λ > 0` the regularized Gram matrix is always invertible. -/
theorem det_regGram_pos_ne {n : ℕ} (x : Fin n → ℝ) {lam : ℝ}
    (hpos : 0 < lam) : (regGram lam x).det ≠ 0 := by
  intro h
  obtain ⟨v, hne, hv⟩ := Matrix.exists_mulVec_eq_zero_iff.mpr h
  have hq : v ⬝ᵥ (regGram lam x *ᵥ v) = 0 := by
    rw [hv, Matrix.dotProduct_zero]
  rw [quad_split] at hq
  have h1 := dp_self_nonneg (designM x *ᵥ v)
  have h2 := dp_self_nonneg v
  have hvv : v ⬝ᵥ v = 0 := by nlinarith
  exact hne (Matrix.dotProduct_self_eq_zero.mp hvv)

/-- Ridge shrinkage at the solution-vector level: the squared norm of the
solution is non-increasing in the regularization strength. -/
theorem thetaVec_norm_sq_anti {n : ℕ} (x y : Fin n → ℝ) {l₁ l₂ : ℝ}
    (h0 : 0 ≤ l₁) (h12 : l₁ ≤ l₂)
    (hd₁ : (regGram l₁ x).det ≠ 0) (hd₂ : (regGram l₂ x).det ≠ 0) :
    thetaVec l₂ x y ⬝ᵥ thetaVec l₂ x y ≤ thetaVec l₁ x y ⬝ᵥ thetaVec l₁ x y := by
  set θ₁ := thetaVec l₁ x y with hθ₁
  set θ₂ := thetaVec l₂ x y with hθ₂
  have hs₁ := thetaVec_solves l₁ x y hd₁
  have hs₂ := thetaVec_solves l₂ x y hd₂
  have hkey : regGram l₁ x *ᵥ (θ₁ - θ₂) = (l₂ - l₁) • θ₂ := by
    rw [Matrix.mulVec_sub, hs₁]
    have hsplit : regGram l₁ x = regGram l₂ x - (l₂ - l₁) • 1 := by
      rw [regGram, regGram, sub_smul]
      abel
    have h2 : regGram l₁ x *ᵥ θ₂ =
        (designM x)ᵀ *ᵥ y - (l₂ - l₁) • θ₂ := by
      rw [hsplit, Matrix.sub_mulVec, hs₂]
      congr 1
      rw [Matrix.smul_mulVec_assoc, Matrix.one_mulVec]
    rw [h2]
    abel
  have hquad := quad_nonneg x h0 (θ₁ - θ₂)
  rw [hkey] at hquad
  rcases eq_or_lt_of_le h12 with heq | hlt
  · have hz : regGram l₁ x *ᵥ (θ₁ - θ₂) = 0 := by
      rw [hkey, ← heq, sub_self, zero_smul]
    have hsub : θ₁ - θ₂ = 0 := by
      by_contra hne
      exact hd₁ (Matrix.exists_mulVec_eq_zero_iff.mp ⟨_, hne, hz⟩)
    rw [sub_eq_zero] at hsub
    rw [hsub]
  · have hdp : 0 ≤ (θ₁ - θ₂) ⬝ᵥ θ₂ := by
      rw [Matrix.dotProduct_smul, smul_eq_mul] at hquad
      nlinarith
    have h1 : θ₂ ⬝ᵥ θ₂ ≤ θ₁ ⬝ᵥ θ₂ := by
      rw [Matrix.sub_dotProduct] at hdp
      linarith
    have hcs : (θ₁ ⬝ᵥ θ₂) ^ 2 ≤ (θ₁ ⬝ᵥ θ₁) * (θ₂ ⬝ᵥ θ₂) := by
      have hcs0 := Finset.sum_mul_sq_le_sq_mul_sq Finset.univ θ₁ θ₂
      rw [dp_self_eq_sum_sq, dp_self_eq_sum_sq]
      exact hcs0
    have ha := dp_self_nonneg θ₂
    have hc := dp_self_nonneg θ₁
    rcases eq_or_lt_of_le ha with ha0 | hapos
    · rw [← ha0]
      exact hc
    · have hmul : (θ₂ ⬝ᵥ θ₂) * (θ₂ ⬝ᵥ θ₂) ≤ (θ₁ ⬝ᵥ θ₁) * (θ₂ ⬝ᵥ θ₂) := by
        nlinarith
      exact le_of_mul_le_mul_right hmul hapos

/-- For `λ > 0`, the squared norm of the ridge solution is at most
`‖XᵀY‖² / λ²`. -/
theorem thetaVec_norm_sq_le {n : ℕ} (x y : Fin n → ℝ) {lam : ℝ}
    (hpos : 0 < lam) (hd : (regGram lam x).det ≠ 0) :
    thetaVec lam x y ⬝ᵥ thetaVec lam x y ≤
      (((designM x)ᵀ *ᵥ y) ⬝ᵥ ((designM x)ᵀ *ᵥ y)) / lam ^ 2 := by
  set θ := thetaVec lam x y with hθdef
  set b := (designM x)ᵀ *ᵥ y with hbdef
  have hs := thetaVec_solves lam x y hd
  have hq : θ ⬝ᵥ (regGram lam x *ᵥ θ) = θ ⬝ᵥ b := by rw [hs]
  rw [quad_split] at hq
  have h1 : lam * (θ ⬝ᵥ θ) ≤ θ ⬝ᵥ b := by
    have := dp_self_nonneg (designM x *ᵥ θ)
    linarith
  have hcs : (θ ⬝ᵥ b) ^ 2 ≤ (θ ⬝ᵥ θ) * (b ⬝ᵥ b) := by
    have hcs0 := Finset.sum_mul_sq_le_sq_mul_sq Finset.univ θ b
    rw [dp_self_eq_sum_sq, dp_self_eq_sum_sq]
    exact hcs0
  have hθθ := dp_self_nonneg θ
  have hbb := dp_self_nonneg b
  rcases eq_or_lt_of_le hθθ with h0' | hposQ
  · rw [← h0']
    positivity
  · rw [le_div_iff₀ (by positivity)]
    nlinarith [mul_pos hposQ hposQ, mul_pos hpos hposQ]

theorem det_gram_012_lam0_real :
    det3 (regGram (0 : ℝ) ([0, 1, 2] : List ℝ).get) = 4 := by
  rw [regGram_list_eq 0 [0, 1, 2] (![0, 1, 2]) rfl (by intro i; fin_cases i <;> rfl)]
  norm_num +decide [det3, regGram, designM, Matrix.mul_apply, Matrix.transpose_apply,
    Fin.sum_univ_three, Matrix.smul_apply, Matrix.one_apply, smul_eq_mul]

/-- Claim C8: for a fixed dataset and `0 ≤ λ₁ ≤ λ₂` with both solves
well-posed, the norm of the fitted coefficient vector at `λ₂` is at most
the one at `λ₁`, and the norm of the fitted coefficient vector tends to
`0` as `λ → ∞`. -/
theorem fit_norm_shrinkage_and_vanishing (lam₁ lam₂ : ℝ)
    (c₀ : Option (Matrix (Fin 3) (Fin 1) ℝ)) (xs ys : List ℝ)
    (hx : xs ≠ []) (hlen : ys.length = xs.length)
    (h0 : 0 ≤ lam₁) (h12 : lam₁ ≤ lam₂)
    (hdet₁ : (regGram lam₁ xs.get).det ≠ 0)
    (hdet₂ : (regGram lam₂ xs.get).det ≠ 0) :
    coeffNorm (Ridge.fit ⟨lam₂, c₀⟩ xs ys) ≤
      coeffNorm (Ridge.fit ⟨lam₁, c₀⟩ xs ys) ∧
    Filter.Tendsto (fun lam => coeffNorm (Ridge.fit ⟨lam, c₀⟩ xs ys))
      Filter.atTop (nhds 0) := by
  constructor
  · rw [coeffNorm_fit lam₁ c₀ xs ys hx hlen hdet₁,
      coeffNorm_fit lam₂ c₀ xs ys hx hlen hdet₂]
    exact Real.sqrt_le_sqrt
      (thetaVec_norm_sq_anti xs.get _ h0 h12 hdet₁ hdet₂)
  · have hBnn : (0 : ℝ) ≤
        ((designM xs.get)ᵀ *ᵥ fun j => ys.get (Fin.cast hlen.symm j)) ⬝ᵥ
          ((designM xs.get)ᵀ *ᵥ fun j => ys.get (Fin.cast hlen.symm j)) :=
      dp_self_nonneg _
    have hub : ∀ lam : ℝ, 1 ≤ lam →
        coeffNorm (Ridge.fit ⟨lam, c₀⟩ xs ys) ≤
          Real.sqrt (((designM xs.get)ᵀ *ᵥ fun j => ys.get (Fin.cast hlen.symm j)) ⬝ᵥ
            ((designM xs.get)ᵀ *ᵥ fun j => ys.get (Fin.cast hlen.symm j))) / lam := by
      intro lam hl1
      have hpos : 0 < lam := lt_of_lt_of_le one_pos hl1
      have hd := det_regGram_pos_ne xs.get hpos
      rw [coeffNorm_fit lam c₀ xs ys hx hlen hd]
      have hb := thetaVec_norm_sq_le xs.get
        (fun j => ys.get (Fin.cast hlen.symm j)) hpos hd
      calc Real.sqrt ((thetaVec lam xs.get fun j => ys.get (Fin.cast hlen.symm j)) ⬝ᵥ
            (thetaVec lam xs.get fun j => ys.get (Fin.cast hlen.symm j)))
          ≤ Real.sqrt ((((designM xs.get)ᵀ *ᵥ fun j => ys.get (Fin.cast hlen.symm j)) ⬝ᵥ
              ((designM xs.get)ᵀ *ᵥ fun j => ys.get (Fin.cast hlen.symm j))) / lam ^ 2) :=
            Real.sqrt_le_sqrt hb
        _ = _ := by
            rw [Real.sqrt_div hBnn, Real.sqrt_sq hpos.le]
    have hg : ∀ᶠ lam in Filter.atTop,
        (0 : ℝ) ≤ coeffNorm (Ridge.fit ⟨lam, c₀⟩ xs ys) :=
      Filter.Eventually.of_forall fun lam => coeffNorm_nonneg _
    have hh : ∀ᶠ lam in Filter.atTop,
        coeffNorm (Ridge.fit ⟨lam, c₀⟩ xs ys) ≤
          Real.sqrt (((designM xs.get)ᵀ *ᵥ fun j => ys.get (Fin.cast hlen.symm j)) ⬝ᵥ
            ((designM xs.get)ᵀ *ᵥ fun j => ys.get (Fin.cast hlen.symm j))) / lam :=
      Filter.eventually_atTop.mpr ⟨1, hub⟩
    have htend : Filter.Tendsto
        (fun lam : ℝ =>
          Real.sqrt (((designM xs.get)ᵀ *ᵥ fun j => ys.get (Fin.cast hlen.symm j)) ⬝ᵥ
            ((designM xs.get)ᵀ *ᵥ fun j => ys.get (Fin.cast hlen.symm j))) / lam)
        Filter.atTop (nhds 0) :=
      Filter.Tendsto.div_atTop tendsto_const_nhds Filter.tendsto_id
    exact tendsto_of_tendsto_of_tendsto_of_le_of_le' tendsto_const_nhds htend hg hh

theorem fit_norm_shrinkage_and_vanishing_witness :
    ([0, 1, 2] : List ℝ) ≠ [] ∧
    ([1, 2, 5] : List ℝ).length = ([0, 1, 2] : List ℝ).length ∧
    (0 : ℝ) ≤ 0 ∧ (0 : ℝ) ≤ 1 ∧
    (regGram (0 : ℝ) ([0, 1, 2] : List ℝ).get).det ≠ 0 ∧
    (regGram (1 : ℝ) ([0, 1, 2] : List ℝ).get).det ≠ 0 ∧
    coeffNorm (Ridge.fit (⟨1, none⟩ : Ridge ℝ) [0, 1, 2] [1, 2, 5]) ≤
      coeffNorm (Ridge.fit (⟨0, none⟩ : Ridge ℝ) [0, 1, 2] [1, 2, 5]) ∧
    Filter.Tendsto
      (fun lam => coeffNorm (Ridge.fit (⟨lam, none⟩ : Ridge ℝ) [0, 1, 2] [1, 2, 5]))
      Filter.atTop (nhds 0) := by
  have hdet0 : (regGram (0 : ℝ) ([0, 1, 2] : List ℝ).get).det ≠ 0 := by
    rw [← det3_eq, det_gram_012_lam0_real]; norm_num
  have hdet1 : (regGram (1 : ℝ) ([0, 1, 2] : List ℝ).get).det ≠ 0 := by
    rw [← det3_eq, det_gram_012_lam1_real]; norm_num
  obtain ⟨h1, h2⟩ := fit_norm_shrinkage_and_vanishing 0 1 none [0, 1, 2]
    [1, 2, 5] (by simp) rfl le_rfl (by norm_num) hdet0 hdet1
  exact ⟨by simp, rfl, le_rfl, by norm_num, hdet0, hdet1, h1, h2⟩
